import Mathlib

/-!
Shallow embedding of the hammer Hamming-distance index (github.com/kerinin/hammer).

Keys are `math/big` integers, embedded as `ℕ`.  The embedded code is:
* `src/db/key.go` — `Key.Transform`, `Key.Permutations`, `Key.Int`, `Key.Hamming`;
* `src/db/partition.go` (the mutex/map variant, lines 163-322) —
  `Partition`, `NewPartition`, `Find`, `Insert`, `Remove`, `insertKey`, `removeKey`;
* `src/db/map_kv.go` (the `[]Key` variant) — `MapKV.Remove`;
* `src/partitioning.go` — `Partitioning`, `NewPartitioning`, `Find`, `Insert`, `Remove`.

Go's `map[interface{}][]Key` is modelled as an association list with
first-binding lookup; mutation replaces the first binding in place, which is
extensionally the Go map.  Go's `(value, error)` returns are modelled as
products with an `Option GoErr` component; `none` is Go's `nil`.
-/

namespace Hammer

/-- Go's `nil`-able `error` values.  No function of the embedded core ever
constructs one; `none` stands for `nil`. -/
abbrev GoErr := String

/-! ### Key primitives (src/db/key.go) -/

/-- Fuel-indexed population count; `mathutil.PopCountBigInt` counts the set
bits of a big integer.  The fuel argument makes the recursion structural; it
is exact whenever `n ≤ fuel`. -/
def popCountFuel : ℕ → ℕ → ℕ
  | 0, _ => 0
  | fuel + 1, n => if n = 0 then 0 else n % 2 + popCountFuel fuel (n / 2)

/-- Number of set bits of `n` (`mathutil.PopCountBigInt`). -/
def popCount (n : ℕ) : ℕ := popCountFuel n n

/-- `Key.Hamming` / the package-level `hamming`: `popcount(x XOR y)`. -/
def hammingDist (x y : ℕ) : ℕ := popCount (x ^^^ y)

/-- One step of `Key.Permutations`: if bit `i` is 0 it is set (`SetBit i 1`),
otherwise cleared (`SetBit i 0`); on the bit level that is xor with `2^i`. -/
def flipBit (k i : ℕ) : ℕ := k ^^^ 2 ^ i

/-- `Key.Permutations(count)`: the list of single-bit flips of `k` at bit
positions `0, …, count−1`. -/
def permutations (k count : ℕ) : List ℕ :=
  (List.range count).map (fun i => flipBit k i)

/-- `Partition.maskBytes`: the big integer with bits `0, …, mask−1` set. -/
def maskBytes (mask : ℕ) : ℕ := 2 ^ mask - 1

/-- `Key.Transform(shift, mask)`: `(k >> shift) & mask`. -/
def transform (k shift mask : ℕ) : ℕ := (k >>> shift) &&& maskBytes mask

/-- The bit width of the Go unsigned integer `Key.Int(size)` narrows to:
`uint8`/`uint16`/`uint32`/`uint64`. -/
def intWidth (size : ℕ) : ℕ :=
  if size ≤ 8 then 8 else if size ≤ 16 then 16 else if size ≤ 32 then 32 else 64

/-- `Key.Int(size)`: the key value narrowed to the `intWidth size`-bit Go
unsigned integer used as the bucket key. -/
def keyInt (size v : ℕ) : ℕ := v % 2 ^ intWidth size

theorem popCountFuel_exact (fuel fuel' n : ℕ) (h : n ≤ fuel) (h' : n ≤ fuel') :
    popCountFuel fuel n = popCountFuel fuel' n := by
  induction fuel generalizing fuel' n with
  | zero =>
    interval_cases n
    cases fuel' <;> simp [popCountFuel]
  | succ f ih =>
    cases fuel' with
    | zero =>
      interval_cases n
      simp [popCountFuel]
    | succ f' =>
      by_cases hn : n = 0
      · simp [popCountFuel, hn]
      · have hd : n / 2 ≤ f := Nat.le_of_lt_succ
          (Nat.lt_of_lt_of_le (Nat.div_lt_self (Nat.pos_of_ne_zero hn) one_lt_two) h)
        have hd' : n / 2 ≤ f' := Nat.le_of_lt_succ
          (Nat.lt_of_lt_of_le (Nat.div_lt_self (Nat.pos_of_ne_zero hn) one_lt_two) h')
        simp only [popCountFuel, if_neg hn]
        rw [ih f' (n / 2) hd hd']

theorem transform_lt (k shift mask : ℕ) : transform k shift mask < 2 ^ mask := by
  have h : (k >>> shift) &&& (2 ^ mask - 1) = (k >>> shift) % 2 ^ mask :=
    Nat.and_pow_two_sub_one_eq_mod _ _
  simpa [transform, maskBytes, h] using Nat.mod_lt _ (Nat.pos_pow_of_pos _ (by omega))

/-! ### The Go map `map[interface{}][]Key`, as an association list. -/

/-- First-binding lookup in an association list (Go map read `v, ok := m[k]`). -/
def aget {α : Type} : List (ℕ × α) → ℕ → Option α
  | [], _ => none
  | (k', v) :: rest, k => if k' = k then some v else aget rest k

/-- Go map write `m[k] = v`: replace the first binding for `k`, or append a
fresh binding. -/
def aset {α : Type} : List (ℕ × α) → ℕ → α → List (ℕ × α)
  | [], k, v => [(k, v)]
  | (k', v') :: rest, k, v =>
    if k' = k then (k, v) :: rest else (k', v') :: aset rest k v

/-- Go map `delete(m, k)`. -/
def adelete {α : Type} (m : List (ℕ × α)) (k : ℕ) : List (ℕ × α) :=
  m.filter (fun p => decide (p.1 ≠ k))

theorem aget_aset_self {α : Type} (m : List (ℕ × α)) (k : ℕ) (v : α) :
    aget (aset m k v) k = some v := by
  induction m with
  | nil => simp [aset, aget]
  | cons p rest ih =>
    by_cases h : p.1 = k
    · simp [aset, aget, h]
    · simpa [aset, aget, h] using ih

theorem aget_aset_ne {α : Type} (m : List (ℕ × α)) (k b : ℕ) (v : α) (h : b ≠ k) :
    aget (aset m k v) b = aget m b := by
  have hk : ¬ k = b := fun h' => h h'.symm
  induction m with
  | nil => simp [aset, aget, hk]
  | cons p rest ih =>
    by_cases hpk : p.1 = k
    · subst hpk
      simp [aset, aget, hk, fun h' : p.1 = b => h h'.symm]
    · by_cases hpb : p.1 = b
      · obtain ⟨p1, p2⟩ := p
        subst hpb
        simp [aset, aget, hpk, ih]
      · simp [aset, aget, hpk, hpb, ih]

theorem mem_aset {α : Type} (m : List (ℕ × α)) (k : ℕ) (v : α) (p : ℕ × α)
    (h : p ∈ aset m k v) : p = (k, v) ∨ p ∈ m := by
  induction m with
  | nil => simpa [aset] using h
  | cons q rest ih =>
    by_cases hq : q.1 = k
    · rcases (by simpa [aset, hq] using h) with h' | h'
      · exact Or.inl h'
      · exact Or.inr (List.mem_cons_of_mem _ h')
    · rcases (by simpa [aset, hq] using h) with h' | h'
      · exact Or.inr (by simp [h'])
      · rcases ih h' with h'' | h''
        · exact Or.inl h''
        · exact Or.inr (List.mem_cons_of_mem _ h'')

theorem aget_mem {α : Type} (m : List (ℕ × α)) (k : ℕ) (v : α)
    (h : aget m k = some v) : (k, v) ∈ m := by
  induction m with
  | nil => simp [aget] at h
  | cons q rest ih =>
    by_cases hq : q.1 = k
    · have hv : q.2 = v := by simpa [aget, hq] using h
      have : q = (k, v) := by
        obtain ⟨q1, q2⟩ := q
        simp only at hq hv
        rw [hq, hv]
      rw [this]
      exact List.mem_cons_self _ _
    · exact List.mem_cons_of_mem _ (ih (by simpa [aget, hq] using h))

/-- The keys of `aset m k v` are the keys of `m` plus `k`. -/
theorem aget_aset_isSome {α : Type} (m : List (ℕ × α)) (k b : ℕ) (v : α) :
    (aget (aset m k v) b).isSome ↔ b = k ∨ (aget m b).isSome := by
  by_cases h : b = k
  · subst h
    simp [aget_aset_self]
  · simp [aget_aset_ne m k b v h, h]

/-! ### Bucket tables (src/db/partition.go, map variant) -/

/-- The two hash tables of a `Partition` map a narrowed sub-word to a slice
of full keys. -/
abbrev BucketMap := List (ℕ × List ℕ)

/-- The slice stored at bucket key `b` (empty when the binding is absent). -/
def bucket (kv : BucketMap) (b : ℕ) : List ℕ := (aget kv b).getD []

/-- `insertKey` (db/partition.go): append `value` to the slice at `key`
unless an element with `Cmp == 0` is already there; returns whether a new
membership was created, together with the updated table. -/
def insertKey (kv : BucketMap) (key value : ℕ) : Bool × BucketMap :=
  match aget kv key with
  | some found_values =>
    if value ∈ found_values then (false, kv)
    else (true, aset kv key (found_values ++ [value]))
  | none => (true, aset kv key [value])

/-- `removeKey` (db/partition.go): delete the first element with `Cmp == 0`
from the slice at `key` (the binding is kept, possibly empty); returns
whether an element was deleted. -/
def removeKey (kv : BucketMap) (key value : ℕ) : Bool × BucketMap :=
  match aget kv key with
  | some found_values =>
    if value ∈ found_values then (true, aset kv key (found_values.erase value))
    else (false, kv)
  | none => (false, kv)

theorem bucket_aset (kv : BucketMap) (k b : ℕ) (vs : List ℕ) :
    bucket (aset kv k vs) b = if b = k then vs else bucket kv b := by
  by_cases h : b = k
  · simp [bucket, h, aget_aset_self]
  · simp [bucket, h, aget_aset_ne kv k b vs h]

theorem insertKey_of_not_mem (kv : BucketMap) (key value : ℕ)
    (h : value ∉ bucket kv key) :
    insertKey kv key value = (true, aset kv key (bucket kv key ++ [value])) := by
  unfold insertKey
  cases hg : aget kv key with
  | none => simp [bucket, hg]
  | some vs => simp [bucket, hg] at h ⊢; simp [h]

theorem insertKey_of_mem (kv : BucketMap) (key value : ℕ)
    (h : value ∈ bucket kv key) :
    insertKey kv key value = (false, kv) := by
  unfold insertKey
  cases hg : aget kv key with
  | none => simp [bucket, hg] at h
  | some vs => simp [bucket, hg] at h ⊢; simp [h]

theorem removeKey_of_mem (kv : BucketMap) (key value : ℕ)
    (h : value ∈ bucket kv key) :
    removeKey kv key value = (true, aset kv key ((bucket kv key).erase value)) := by
  unfold removeKey
  cases hg : aget kv key with
  | none => simp [bucket, hg] at h
  | some vs => simp [bucket, hg] at h ⊢; simp [h]

theorem removeKey_of_not_mem (kv : BucketMap) (key value : ℕ)
    (h : value ∉ bucket kv key) :
    removeKey kv key value = (false, kv) := by
  unfold removeKey
  cases hg : aget kv key with
  | none => simp [bucket, hg]
  | some vs => simp [bucket, hg] at h ⊢; simp [h]

/-! ### Partition (src/db/partition.go, mutex/map variant) -/

/-- One shard of the index: geometry `(shift, mask)` plus the zero- and
one-tables.  The `sync.RWMutex` fields guard the two tables; locking has no
sequential content and is not part of the state. -/
structure Partition where
  shift : ℕ
  mask : ℕ
  zero_kv : BucketMap
  one_kv : BucketMap
  deriving DecidableEq

/-- `NewPartition(shift, mask)`: both tables start empty. -/
def newPartition (shift mask : ℕ) : Partition :=
  { shift := shift, mask := mask, zero_kv := [], one_kv := [] }

/-- `Partition.Find(key)`: look every 1-permutation of the transformed query
up in the one-table (mark 1), then the transformed query itself up in the
zero-table (mark 0, overwriting); `nil` error. -/
def Partition.find (p : Partition) (key : ℕ) : List (ℕ × ℕ) × Option GoErr :=
  let transformed_key := transform key p.shift p.mask
  let found_keys : List (ℕ × ℕ) :=
    (permutations transformed_key p.mask).foldl
      (fun found permuted_key =>
        match aget p.one_kv (keyInt p.mask permuted_key) with
        | some source_keys =>
          source_keys.foldl (fun found source_key => aset found source_key 1) found
        | none => found) []
  let found_keys :=
    match aget p.zero_kv (keyInt p.mask transformed_key) with
    | some source_keys =>
      source_keys.foldl (fun found source_key => aset found source_key 0) found_keys
    | none => found_keys
  (found_keys, none)

/-- `Partition.Insert(key)`: insert into the zero-table; only when that
creates a new membership, insert under every 1-permutation into the
one-table.  Returns the zero-table result and a `nil` error. -/
def Partition.insert (p : Partition) (key : ℕ) : Partition × Bool × Option GoErr :=
  let transformed_key := transform key p.shift p.mask
  let r := insertKey p.zero_kv (keyInt p.mask transformed_key) key
  if r.1 then
    let one_kv' := (permutations transformed_key p.mask).foldl
      (fun kv permuted_key => (insertKey kv (keyInt p.mask permuted_key) key).2)
      p.one_kv
    ({ p with zero_kv := r.2, one_kv := one_kv' }, true, none)
  else
    ({ p with zero_kv := r.2 }, false, none)

/-- `Partition.Remove(key)`: mirror of `Insert` built on `removeKey`. -/
def Partition.remove (p : Partition) (key : ℕ) : Partition × Bool × Option GoErr :=
  let transformed_key := transform key p.shift p.mask
  let r := removeKey p.zero_kv (keyInt p.mask transformed_key) key
  if r.1 then
    let one_kv' := (permutations transformed_key p.mask).foldl
      (fun kv permuted_key => (removeKey kv (keyInt p.mask permuted_key) key).2)
      p.one_kv
    ({ p with zero_kv := r.2, one_kv := one_kv' }, true, none)
  else
    ({ p with zero_kv := r.2 }, false, none)

/-- The bucket key the code derives from `x` for the zero-table of `p`. -/
def zeroKeyOf (p : Partition) (x : ℕ) : ℕ :=
  keyInt p.mask (transform x p.shift p.mask)

/-- The bucket key the code derives from `x` and flip position `i` for the
one-table of `p`. -/
def oneKeyOf (p : Partition) (x i : ℕ) : ℕ :=
  keyInt p.mask (flipBit (transform x p.shift p.mask) i)

/-! ### MapKV (src/db/map_kv.go, `[]Key` variant) -/

namespace MapKV

/-- `MapKV.Remove(key, value)`: when the slice at `key` has exactly one
element the whole binding is deleted and `true` returned — without comparing
that element to `value`; otherwise the first element with `Cmp == 0` is
deleted; `false` when nothing matches. -/
def remove (kv : BucketMap) (key value : ℕ) : Bool × BucketMap :=
  match aget kv key with
  | some found_values =>
    if found_values.length = 1 then (true, adelete kv key)
    else if value ∈ found_values then (true, aset kv key (found_values.erase value))
    else (false, kv)
  | none => (false, kv)

end MapKV

/-! ### Partitioning (src/partitioning.go) -/

/-- The partition count computed by `NewPartitioning`. -/
def partitionCount (bits tolerance : ℕ) : ℕ :=
  if tolerance = 0 then 1
  else if tolerance > bits then (bits + 3) / 2
  else (tolerance + 3) / 2

/-- The top-level index: `(bits, tolerance, partition_count, partitions)`. -/
structure Partitioning where
  bits : ℕ
  tolerance : ℕ
  partition_count : ℕ
  partitions : List Partition
  deriving DecidableEq

/-- `NewPartitioning(bits, tolerance)`: `head_count` partitions of width
`⌈bits/P⌉` followed by the rest of width `⌊bits/P⌋`, shifts cumulative. -/
def newPartitioning (bits tolerance : ℕ) : Partitioning :=
  let partition_count := partitionCount bits tolerance
  let head_width := (bits + partition_count - 1) / partition_count
  let tail_width := bits / partition_count
  let head_count := bits % partition_count
  let tail_count := partition_count - head_count
  let partitions :=
    (List.range head_count).map (fun i => newPartition (i * head_width) head_width) ++
    (List.range tail_count).map
      (fun i => newPartition (head_count * head_width + i * tail_width) tail_width)
  { bits := bits, tolerance := tolerance, partition_count := partition_count,
    partitions := partitions }

/-- One iteration of step 2 of `Partitioning.Find`: read the current tally
`current := candidates[k]` (zero value `(0, 0)` when absent), increment `e`
on tag 0 and `o` otherwise, and write it back. -/
def tallyStep (cands : List (ℕ × ℕ × ℕ)) (kv : ℕ × ℕ) : List (ℕ × ℕ × ℕ) :=
  if kv.2 = 0 then
    aset cands kv.1 (((aget cands kv.1).getD (0, 0)).1 + 1, ((aget cands kv.1).getD (0, 0)).2)
  else
    aset cands kv.1 (((aget cands kv.1).getD (0, 0)).1, ((aget cands kv.1).getD (0, 0)).2 + 1)

/-- Step 2 of `Partitioning.Find`: merge one partition's `(key, tag)` report
into the candidate tally `Map<Key, (e, o)>`. -/
def tallyPartition (cands : List (ℕ × ℕ × ℕ)) (p_candidates : List (ℕ × ℕ)) :
    List (ℕ × ℕ × ℕ) :=
  p_candidates.foldl tallyStep cands

/-- The candidate-gathering loop of `Partitioning.Find`: query every
partition in order, propagating a non-`nil` error immediately. -/
def findCandidates (key : ℕ) : List Partition → List (ℕ × ℕ × ℕ) →
    List (ℕ × ℕ × ℕ) × Option GoErr
  | [], cands => (cands, none)
  | p :: ps, cands =>
    match p.find key with
    | (p_candidates, none) => findCandidates key ps (tallyPartition cands p_candidates)
    | (_, some e) => (cands, some e)

/-- `Partitioning.Find(key)`: gather candidates, prune with the even/odd
admission test, verify survivors by full Hamming distance against the
tolerance. -/
def Partitioning.find (P : Partitioning) (key : ℕ) : List (ℕ × ℕ) × Option GoErr :=
  match findCandidates key P.partitions [] with
  | (_, some e) => ([], some e)
  | (candidates, none) =>
    if P.tolerance % 2 = 0 then
      (candidates.foldl
        (fun found_matches kv =>
          if 1 ≤ kv.2.1 ∨ 2 ≤ kv.2.2 then
            if hammingDist kv.1 key ≤ P.tolerance then
              aset found_matches kv.1 (hammingDist kv.1 key)
            else found_matches
          else found_matches) [], none)
    else
      (candidates.foldl
        (fun found_matches kv =>
          if (1 ≤ kv.2.1 ∧ 2 ≤ kv.2.1 + kv.2.2) ∨ 3 ≤ kv.2.2 then
            if hammingDist kv.1 key ≤ P.tolerance then
              aset found_matches kv.1 (hammingDist kv.1 key)
            else found_matches
          else found_matches) [], none)

/-- The insert fan-out loop of `Partitioning.Insert`, threading
`any_inserted` and returning early on a non-`nil` error. -/
def insertParts (key : ℕ) : List Partition → Bool →
    List Partition × Bool × Option GoErr
  | [], any_inserted => ([], any_inserted, none)
  | p :: ps, any_inserted =>
    match p.insert key with
    | (p', added, none) =>
      let r := insertParts key ps (any_inserted || added)
      (p' :: r.1, r.2)
    | (p', _, some e) => (p' :: ps, any_inserted, some e)

/-- `Partitioning.Insert(key)`. -/
def Partitioning.insert (P : Partitioning) (key : ℕ) :
    Partitioning × Bool × Option GoErr :=
  let r := insertParts key P.partitions false
  ({ P with partitions := r.1 }, r.2)

/-- The remove fan-out loop of `Partitioning.Remove`. -/
def removeParts (key : ℕ) : List Partition → Bool →
    List Partition × Bool × Option GoErr
  | [], any_removed => ([], any_removed, none)
  | p :: ps, any_removed =>
    match p.remove key with
    | (p', removed, none) =>
      let r := removeParts key ps (any_removed || removed)
      (p' :: r.1, r.2)
    | (p', _, some e) => (p' :: ps, any_removed, some e)

/-- `Partitioning.Remove(key)`. -/
def Partitioning.remove (P : Partitioning) (key : ℕ) :
    Partitioning × Bool × Option GoErr :=
  let r := removeParts key P.partitions false
  ({ P with partitions := r.1 }, r.2)

/-- The partition-count selection of the disused `NewPartitioning` variant
embedded in src/partition_test.go (lines 297-307). -/
def testVariantPartitionCount (bits max_hamming_distance : ℕ) : ℕ :=
  if max_hamming_distance = 0 then 1
  else if max_hamming_distance > bits then bits
  else max_hamming_distance

/-- The HmSearch admission rule as the specification states it (§4.3 step 3). -/
def hmSearchRule (tolerance e o : ℕ) : Prop :=
  if tolerance % 2 = 0 then 1 ≤ e ∨ 2 ≤ o
  else (1 ≤ e ∧ 2 ≤ e + o) ∨ 3 ≤ o

instance (tolerance e o : ℕ) : Decidable (hmSearchRule tolerance e o) :=
  if h : tolerance % 2 = 0 then
    decidable_of_iff (1 ≤ e ∨ 2 ≤ o) (by unfold hmSearchRule; rw [if_pos h])
  else
    decidable_of_iff ((1 ≤ e ∧ 2 ≤ e + o) ∨ 3 ≤ o) (by unfold hmSearchRule; rw [if_neg h])

/-- Whether partition `p` reports key `x` with mark `t` for query `q`. -/
def reportsTag (p : Partition) (q x t : ℕ) : Bool :=
  (p.find q).1.any (fun kv => kv.1 == x && kv.2 == t)

theorem reportsTag_iff (p : Partition) (q x t : ℕ) :
    reportsTag p q x t = true ↔ (x, t) ∈ (p.find q).1 := by
  unfold reportsTag
  rw [List.any_eq_true]
  constructor
  · rintro ⟨kv, hkv, hb⟩
    obtain ⟨kv1, kv2⟩ := kv
    simp only [Bool.and_eq_true, beq_iff_eq] at hb
    rw [← hb.1, ← hb.2]
    exact hkv
  · intro h
    exact ⟨(x, t), h, by simp⟩

/-- Number of partitions of `P` reporting `x` as an exact match for `q`. -/
def countExact (P : Partitioning) (q x : ℕ) : ℕ :=
  P.partitions.countP (fun p => reportsTag p q x 0)

/-- Number of partitions of `P` reporting `x` as a 1-match for `q`. -/
def countOne (P : Partitioning) (q x : ℕ) : ℕ :=
  P.partitions.countP (fun p => reportsTag p q x 1)

/-! ### Basic facts -/

theorem partitionCount_pos (bits tolerance : ℕ) : 0 < partitionCount bits tolerance := by
  unfold partitionCount
  split
  · omega
  · split <;> omega

theorem newPartitioning_length (bits tolerance : ℕ) :
    (newPartitioning bits tolerance).partitions.length = partitionCount bits tolerance := by
  have hpos := partitionCount_pos bits tolerance
  have hmod := Nat.mod_lt bits hpos
  simp only [newPartitioning, List.length_append, List.length_map, List.length_range]
  omega

/-- Sanity: the embedding reproduces `TestPartitioningFindPermutationsOfMultipleSimilarKeys`
(keys 10000000₂=1, 10000001₂=129, 11000001₂=131, 11000011₂=195 at distances
1–4 from the zero query, `B = 8`, `k = 4`). -/
theorem repo_test_multiple_similar_keys :
    ((((((newPartitioning 8 4).insert 1).1.insert 129).1.insert 131).1.insert
      195).1.find 0).1 = [(131, 3), (195, 4), (1, 1), (129, 2)] := by decide

/-- Sanity: the embedding reproduces `TestPartitioningFindPermutationOfInsertedKey`
(`B = 4`, `k = 4`, insert 00001111₂-read-as-240, query 00000111₂-read-as-224). -/
theorem repo_test_find_permutation :
    (((newPartitioning 4 4).insert 240).1.find 224).1 = [(240, 1)] := by decide

/-! ### Error behaviour -/

theorem partition_find_err (p : Partition) (key : ℕ) : (p.find key).2 = none := rfl

theorem partition_insert_err (p : Partition) (key : ℕ) :
    (p.insert key).2.2 = none := by
  unfold Partition.insert
  by_cases h : (insertKey p.zero_kv (keyInt p.mask (transform key p.shift p.mask)) key).1 = true <;>
    simp [h]

theorem partition_remove_err (p : Partition) (key : ℕ) :
    (p.remove key).2.2 = none := by
  unfold Partition.remove
  by_cases h : (removeKey p.zero_kv (keyInt p.mask (transform key p.shift p.mask)) key).1 = true <;>
    simp [h]

theorem findCandidates_err (key : ℕ) (ps : List Partition) (cands : List (ℕ × ℕ × ℕ)) :
    (findCandidates key ps cands).2 = none := by
  induction ps generalizing cands with
  | nil => rfl
  | cons p ps ih =>
    rcases hfind : p.find key with ⟨pc, e⟩
    have he : e = none := by
      have := partition_find_err p key
      rw [hfind] at this
      exact this
    subst he
    simp only [findCandidates, hfind]
    exact ih _

theorem partitioning_find_err (P : Partitioning) (key : ℕ) :
    (P.find key).2 = none := by
  have herr := findCandidates_err key P.partitions []
  rcases hfc : findCandidates key P.partitions [] with ⟨cands, e⟩
  rw [hfc] at herr
  simp only at herr
  subst herr
  unfold Partitioning.find
  rw [hfc]
  by_cases h : P.tolerance % 2 = 0 <;> simp [h]

theorem insertParts_err (key : ℕ) (ps : List Partition) (b : Bool) :
    (insertParts key ps b).2.2 = none := by
  induction ps generalizing b with
  | nil => rfl
  | cons p ps ih =>
    rcases hins : p.insert key with ⟨p', added, e⟩
    have he : e = none := by
      have := partition_insert_err p key
      rw [hins] at this
      exact this
    subst he
    simp only [insertParts, hins]
    exact ih _

theorem removeParts_err (key : ℕ) (ps : List Partition) (b : Bool) :
    (removeParts key ps b).2.2 = none := by
  induction ps generalizing b with
  | nil => rfl
  | cons p ps ih =>
    rcases hrem : p.remove key with ⟨p', removed, e⟩
    have he : e = none := by
      have := partition_remove_err p key
      rw [hrem] at this
      exact this
    subst he
    simp only [removeParts, hrem]
    exact ih _

/-! ### Claim theorems: evaluations -/

/-- Claim C1: after `insert(x)`, `find(q)` contains `(x, popcount(q XOR x))`
whenever `popcount(q XOR x) ≤ k`.  This fails on the code: with `B = 8`,
`k = 2`, the key `x = 17` (bits 0 and 4 set) is at distance 2 from the query
`q = 0`, yet `find(0)` returns the empty map — each partition sees a one-bit
sub-word difference, which neither the zero-table nor the query-permuted
one-table lookup can report. -/
theorem find_misses_key_within_tolerance :
    hammingDist 0 17 ≤ (newPartitioning 8 2).tolerance ∧
    (((newPartitioning 8 2).insert 17).1.find 0).1 = [] := by decide

/-- Claim C4: `Partition.Find(q)` is claimed to return exactly the indexed
keys whose sub-word is within one bit of `subword(q)`.  On the code, with
partition geometry `(0, 4)`: the indexed key 1 (sub-word distance 1 from the
query 0) is not returned at all, while the indexed key 3 (sub-word distance
2) is returned with mark 1. -/
theorem partition_find_misreports_neighbors :
    (((newPartition 0 4).insert 1).1.find 0).1 = [] ∧
    hammingDist (transform 1 0 4) (transform 0 0 4) = 1 ∧
    (((newPartition 0 4).insert 3).1.find 0).1 = [(3, 1)] ∧
    hammingDist (transform 3 0 4) (transform 0 0 4) = 2 := by decide

/-- Claim C5, counterexample: `NewPartitioning(8, 4)` creates 3 partitions,
not `max(1, min(8, 4)) = 4`. -/
theorem newPartitioning_count_counterexample :
    (newPartitioning 8 4).partitions.length = 3 ∧
    ¬ (newPartitioning 8 4).partitions.length = max 1 (min 8 4) := by decide

/-- Claim C5, amended: `NewPartitioning` in partitioning.go creates
`P = 1` when `k = 0`, `P = (B+3)/2` when `k > B`, and `P = (k+3)/2`
otherwise; the `max(1, min(B, k))` formula is computed only by the disused
variant embedded in partition_test.go (for positive `B`). -/
theorem newPartitioning_partition_count (bits tolerance : ℕ) (hb : 1 ≤ bits) :
    ((newPartitioning bits tolerance).partitions.length =
      if tolerance = 0 then 1
      else if tolerance > bits then (bits + 3) / 2
      else (tolerance + 3) / 2) ∧
    testVariantPartitionCount bits tolerance = max 1 (min bits tolerance) := by
  constructor
  · rw [newPartitioning_length bits tolerance]
    rfl
  · unfold testVariantPartitionCount
    split
    · omega
    · split <;> omega

/-- Witness for `newPartitioning_partition_count` at `(B, k) = (8, 4)`. -/
theorem newPartitioning_partition_count_witness :
    (1 ≤ 8) ∧
    ((newPartitioning 8 4).partitions.length =
      if 4 = 0 then 1 else if 4 > 8 then (8 + 3) / 2 else (4 + 3) / 2) ∧
    testVariantPartitionCount 8 4 = max 1 (min 8 4) :=
  ⟨by decide, newPartitioning_partition_count 8 4 (by decide)⟩

/-- Claim C6: `remove(k, v)` is claimed to return `true` iff `v` was present.
On the code, when the slice at `k` has exactly one element, `MapKV.Remove`
deletes the whole binding and returns `true` without comparing that element
to `v`: removing the absent value 9 from the store `{5 ↦ [7]}` returns
`true` and erases 7. -/
theorem mapkv_remove_singleton_mismatch :
    9 ∉ bucket [(5, [7])] 5 ∧
    MapKV.remove [(5, [7])] 5 9 = (true, []) := by decide

/-- Claim C9, counterexample: a key of width 9 (`256 ≥ 2^8`) presented to an
index configured with `B = 8` is accepted: `Insert` returns `(true, nil)`
and changes the index, instead of surfacing a `KeyWidthMismatch` error and
leaving the index unchanged. -/
theorem insert_wide_key_no_error :
    2 ^ 8 ≤ 256 ∧
    ((newPartitioning 8 2).insert 256).2 = (true, none) ∧
    ¬ ((newPartitioning 8 2).insert 256).1 = newPartitioning 8 2 := by decide

/-- Claim C10: `Partitioning.Find`/`Insert`/`Remove` and the per-`Partition`
operations they fan out to always return a `nil` error, for every index
state and every key: no operation of the core can fail. -/
theorem core_ops_never_error (P : Partitioning) (p : Partition) (key : ℕ) :
    (P.find key).2 = none ∧ (P.insert key).2.2 = none ∧
    (P.remove key).2.2 = none ∧ (p.find key).2 = none ∧
    (p.insert key).2.2 = none ∧ (p.remove key).2.2 = none :=
  ⟨partitioning_find_err P key, insertParts_err key P.partitions false,
   removeParts_err key P.partitions false, partition_find_err p key,
   partition_insert_err p key, partition_remove_err p key⟩

/-! ### Claim C2: soundness of returned `(key, distance)` pairs -/

theorem hammingDist_comm (x y : ℕ) : hammingDist x y = hammingDist y x := by
  unfold hammingDist
  rw [Nat.xor_comm]

theorem foldl_sound_step {α : Type} (q tol : ℕ)
    (f : List (ℕ × ℕ) → α → List (ℕ × ℕ))
    (hf : ∀ fm kv x d, (x, d) ∈ f fm kv →
      (x, d) ∈ fm ∨ (d = hammingDist x q ∧ d ≤ tol)) :
    ∀ (l : List α) (acc : List (ℕ × ℕ)),
      (∀ x d, (x, d) ∈ acc → d = hammingDist x q ∧ d ≤ tol) →
      ∀ x d, (x, d) ∈ l.foldl f acc → d = hammingDist x q ∧ d ≤ tol := by
  intro l
  induction l with
  | nil => intro acc hacc x d h; exact hacc x d h
  | cons kv rest ih =>
    intro acc hacc x d h
    refine ih (f acc kv) ?_ x d h
    intro y e hy
    rcases hf acc kv y e hy with hm | hs
    · exact hacc y e hm
    · exact hs

/-- Claim C2: every pair `(x, d)` in the map returned by `Partitioning.Find(q)`
satisfies `d = popcount(q XOR x)` and `d ≤ k` — for every index state
whatsoever (any bucket-table contents, so in particular any state an
evicting LRU store could produce): only the final Hamming verification
decides what is emitted. -/
theorem find_returned_distances_sound (P : Partitioning) (q x d : ℕ)
    (h : (x, d) ∈ (P.find q).1) : d = hammingDist q x ∧ d ≤ P.tolerance := by
  have herr := findCandidates_err q P.partitions []
  rcases hfc : findCandidates q P.partitions [] with ⟨cands, e⟩
  rw [hfc] at herr
  simp only at herr
  subst herr
  unfold Partitioning.find at h
  rw [hfc] at h
  simp only at h
  rw [← hammingDist_comm x q]
  by_cases ht : P.tolerance % 2 = 0
  · rw [if_pos ht] at h
    simp only at h
    refine foldl_sound_step q P.tolerance _ ?_ cands [] (by simp) x d h
    intro fm kv y e hy
    by_cases hc : 1 ≤ kv.2.1 ∨ 2 ≤ kv.2.2
    · rw [if_pos hc] at hy
      by_cases hh : hammingDist kv.1 q ≤ P.tolerance
      · rw [if_pos hh] at hy
        rcases mem_aset fm kv.1 (hammingDist kv.1 q) (y, e) hy with h' | h'
        · right
          have h1 : y = kv.1 := congrArg Prod.fst h'
          have h2 : e = hammingDist kv.1 q := congrArg Prod.snd h'
          subst h1
          exact ⟨h2, h2 ▸ hh⟩
        · exact Or.inl h'
      · rw [if_neg hh] at hy
        exact Or.inl hy
    · rw [if_neg hc] at hy
      exact Or.inl hy
  · rw [if_neg ht] at h
    simp only at h
    refine foldl_sound_step q P.tolerance _ ?_ cands [] (by simp) x d h
    intro fm kv y e hy
    by_cases hc : (1 ≤ kv.2.1 ∧ 2 ≤ kv.2.1 + kv.2.2) ∨ 3 ≤ kv.2.2
    · rw [if_pos hc] at hy
      by_cases hh : hammingDist kv.1 q ≤ P.tolerance
      · rw [if_pos hh] at hy
        rcases mem_aset fm kv.1 (hammingDist kv.1 q) (y, e) hy with h' | h'
        · right
          have h1 : y = kv.1 := congrArg Prod.fst h'
          have h2 : e = hammingDist kv.1 q := congrArg Prod.snd h'
          subst h1
          exact ⟨h2, h2 ▸ hh⟩
        · exact Or.inl h'
      · rw [if_neg hh] at hy
        exact Or.inl hy
    · rw [if_neg hc] at hy
      exact Or.inl hy

/-- Witness for `find_returned_distances_sound`: the pair `(240, 1)` returned
for query 224 on the index `B = 4`, `k = 4` holding key 240. -/
theorem find_returned_distances_sound_witness :
    1 = hammingDist 224 240 ∧ 1 ≤ (((newPartitioning 4 4).insert 240).1).tolerance :=
  find_returned_distances_sound (((newPartitioning 4 4).insert 240).1) 224 240 1 (by decide)

/-! ### Partition-level insert behaviour -/

theorem partition_insert_geom (p : Partition) (x : ℕ) :
    ((p.insert x).1).shift = p.shift ∧ ((p.insert x).1).mask = p.mask := by
  unfold Partition.insert
  by_cases h : (insertKey p.zero_kv (keyInt p.mask (transform x p.shift p.mask)) x).1 = true <;>
    simp [h]

theorem partition_insert_of_mem (p : Partition) (x : ℕ)
    (h : x ∈ bucket p.zero_kv (zeroKeyOf p x)) : p.insert x = (p, false, none) := by
  unfold zeroKeyOf at h
  have hr := insertKey_of_mem p.zero_kv (keyInt p.mask (transform x p.shift p.mask)) x h
  unfold Partition.insert
  simp only [hr, Bool.false_eq_true, if_false]

theorem partition_insert_added_of_not_mem (p : Partition) (x : ℕ)
    (h : x ∉ bucket p.zero_kv (zeroKeyOf p x)) : (p.insert x).2 = (true, none) := by
  unfold zeroKeyOf at h
  have hr := insertKey_of_not_mem p.zero_kv (keyInt p.mask (transform x p.shift p.mask)) x h
  unfold Partition.insert
  simp only [hr, if_true]

theorem partition_insert_zero_mem_after (p : Partition) (x : ℕ) :
    x ∈ bucket ((p.insert x).1).zero_kv (zeroKeyOf ((p.insert x).1) x) := by
  have hgeom := partition_insert_geom p x
  have hkey : zeroKeyOf ((p.insert x).1) x = zeroKeyOf p x := by
    unfold zeroKeyOf
    rw [hgeom.1, hgeom.2]
  rw [hkey]
  by_cases h : x ∈ bucket p.zero_kv (zeroKeyOf p x)
  · rw [partition_insert_of_mem p x h]
    exact h
  · have h' := h
    unfold zeroKeyOf at h'
    have hr := insertKey_of_not_mem p.zero_kv (keyInt p.mask (transform x p.shift p.mask)) x h'
    unfold Partition.insert
    simp only [hr, if_true]
    unfold zeroKeyOf
    rw [bucket_aset]
    simp

theorem partition_insert_fresh (p : Partition) (x : ℕ) (h : p.zero_kv = []) :
    (p.insert x).2 = (true, none) := by
  apply partition_insert_added_of_not_mem
  rw [h]
  simp [bucket, aget]

/-! ### Partitioning-level insert behaviour -/

theorem insertParts_parts (x : ℕ) (ps : List Partition) (b : Bool) :
    (insertParts x ps b).1 = ps.map (fun p => (p.insert x).1) := by
  induction ps generalizing b with
  | nil => rfl
  | cons p rest ih =>
    rcases hq : p.insert x with ⟨p', added, e⟩
    have he : e = none := by
      have := partition_insert_err p x
      rw [hq] at this
      exact this
    subst he
    simp only [insertParts, hq, List.map_cons]
    rw [ih]

theorem insertParts_flag_true (x : ℕ) (ps : List Partition) :
    (insertParts x ps true).2.1 = true := by
  induction ps with
  | nil => rfl
  | cons p rest ih =>
    rcases hq : p.insert x with ⟨p', added, e⟩
    have he : e = none := by
      have := partition_insert_err p x
      rw [hq] at this
      exact this
    subst he
    simp only [insertParts, hq, Bool.true_or]
    exact ih

theorem insertParts_of_all_mem (x : ℕ) (ps : List Partition) (b : Bool)
    (h : ∀ p ∈ ps, x ∈ bucket p.zero_kv (zeroKeyOf p x)) :
    insertParts x ps b = (ps, b, none) := by
  induction ps generalizing b with
  | nil => rfl
  | cons p rest ih =>
    have hp := partition_insert_of_mem p x (h p (List.mem_cons_self _ _))
    simp only [insertParts, hp, Bool.or_false]
    rw [ih b (fun p' hp' => h p' (List.mem_cons_of_mem _ hp'))]

theorem partitioning_insert_of_all_mem (P : Partitioning) (x : ℕ)
    (h : ∀ p ∈ P.partitions, x ∈ bucket p.zero_kv (zeroKeyOf p x)) :
    P.insert x = (P, false, none) := by
  unfold Partitioning.insert
  rw [insertParts_of_all_mem x P.partitions false h]

theorem partitioning_insert_flag_of_head_absent (P : Partitioning) (x : ℕ)
    (q : Partition) (rest : List Partition) (hps : P.partitions = q :: rest)
    (habs : x ∉ bucket q.zero_kv (zeroKeyOf q x)) :
    (P.insert x).2 = (true, none) := by
  unfold Partitioning.insert
  rw [hps]
  have hq := partition_insert_added_of_not_mem q x habs
  rcases hins : q.insert x with ⟨q', added, e⟩
  rw [hins] at hq
  simp only at hq
  obtain ⟨ha, he⟩ : added = true ∧ e = none := by
    constructor
    · exact congrArg Prod.fst hq
    · exact congrArg Prod.snd hq
  subst ha he
  simp only [insertParts, hins, Bool.false_or]
  rcases hres : insertParts x rest true with ⟨ps', flag, err⟩
  have h1 := insertParts_flag_true x rest
  rw [hres] at h1
  have h2 := insertParts_err x rest true
  rw [hres] at h2
  simp only at h1 h2
  subst h1 h2
  rfl

/-- The reply sequence of `n` successive `Partitioning.Insert(x)` calls. -/
def insertTrace (P : Partitioning) (x : ℕ) : ℕ → List Bool
  | 0 => []
  | n + 1 => (P.insert x).2.1 :: insertTrace ((P.insert x).1) x n

theorem insertTrace_all_mem (P : Partitioning) (x : ℕ) (m : ℕ)
    (h : ∀ p ∈ P.partitions, x ∈ bucket p.zero_kv (zeroKeyOf p x)) :
    insertTrace P x m = List.replicate m false := by
  induction m generalizing P with
  | zero => rfl
  | succ m ih =>
    have hins := partitioning_insert_of_all_mem P x h
    simp only [insertTrace, hins]
    rw [List.replicate_succ, ih P h]

/-- Claim C8: starting from an index that does not hold `x` (no partition's
zero-table contains it), `n ≥ 1` successive `Insert(x)` calls return `true`
exactly once — on the first call — and `false` on the remaining `n − 1`. -/
theorem insert_idempotent_trace (P : Partitioning) (x n : ℕ) (hn : 1 ≤ n)
    (hne : P.partitions ≠ [])
    (habs : ∀ p ∈ P.partitions, x ∉ bucket p.zero_kv (zeroKeyOf p x)) :
    insertTrace P x n = true :: List.replicate (n - 1) false := by
  obtain ⟨m, rfl⟩ : ∃ m, n = m + 1 := ⟨n - 1, by omega⟩
  rcases hps : P.partitions with _ | ⟨q, rest⟩
  · exact absurd hps hne
  have hflag := partitioning_insert_flag_of_head_absent P x q rest hps
    (habs q (by rw [hps]; exact List.mem_cons_self _ _))
  have hafter : ∀ p' ∈ ((P.insert x).1).partitions,
      x ∈ bucket p'.zero_kv (zeroKeyOf p' x) := by
    intro p' hp'
    have hparts : ((P.insert x).1).partitions =
        P.partitions.map (fun p => (p.insert x).1) := by
      unfold Partitioning.insert
      exact insertParts_parts x P.partitions false
    rw [hparts] at hp'
    rcases List.mem_map.mp hp' with ⟨p, _, rfl⟩
    exact partition_insert_zero_mem_after p x
  simp only [insertTrace]
  rw [congrArg Prod.fst hflag, insertTrace_all_mem ((P.insert x).1) x m hafter]
  simp

/-- Witness for `insert_idempotent_trace`: three inserts of key 5 into the
fresh `B = 8`, `k = 2` index reply `[true, false, false]`. -/
theorem insert_idempotent_trace_witness :
    insertTrace (newPartitioning 8 2) 5 3 = [true, false, false] := by
  have h := insert_idempotent_trace (newPartitioning 8 2) 5 3 (by decide) (by decide)
    (by decide)
  simpa using h

/-- Claim C9, amended: there is no width validation anywhere in the core —
a key of any width inserted into a fresh index of any geometry is accepted
(`Insert` replies `(true, nil)`), and `Find`/`Remove` likewise never surface
an error. -/
theorem ops_accept_any_width (bits tolerance x : ℕ) :
    ((newPartitioning bits tolerance).insert x).2 = (true, none) ∧
    ((newPartitioning bits tolerance).find x).2 = none ∧
    ((newPartitioning bits tolerance).remove x).2.2 = none := by
  refine ⟨?_, partitioning_find_err _ x, removeParts_err x _ false⟩
  rcases hps : (newPartitioning bits tolerance).partitions with _ | ⟨q, rest⟩
  · have hlen := newPartitioning_length bits tolerance
    rw [hps] at hlen
    have := partitionCount_pos bits tolerance
    simp at hlen
    omega
  · have hfresh : q.zero_kv = [] := by
      have hq : q ∈ (newPartitioning bits tolerance).partitions := by
        rw [hps]; exact List.mem_cons_self _ _
      simp only [newPartitioning, List.mem_append, List.mem_map,
        List.mem_range] at hq
      rcases hq with ⟨i, _, rfl⟩ | ⟨i, _, rfl⟩ <;> rfl
    exact partitioning_insert_flag_of_head_absent _ x q rest hps
      (by rw [hfresh]; simp [bucket, aget])

/-! ### Key-uniqueness of the association lists built by `aset` -/

/-- The binding keys of `m` are pairwise distinct. -/
def keysNodup {α : Type} (m : List (ℕ × α)) : Prop := (m.map Prod.fst).Nodup

theorem mem_keys_iff_isSome {α : Type} (m : List (ℕ × α)) (b : ℕ) :
    b ∈ m.map Prod.fst ↔ (aget m b).isSome := by
  induction m with
  | nil => simp [aget]
  | cons p rest ih =>
    by_cases h : p.1 = b
    · simp [aget, h]
    · simp only [List.map_cons, List.mem_cons, aget, if_neg h, ih]
      constructor
      · rintro (h' | h')
        · exact absurd h'.symm h
        · exact h'
      · exact Or.inr

theorem keysNodup_aset {α : Type} (m : List (ℕ × α)) (k : ℕ) (v : α)
    (h : keysNodup m) : keysNodup (aset m k v) := by
  induction m with
  | nil => simp [aset, keysNodup]
  | cons p rest ih =>
    unfold keysNodup at h
    rw [List.map_cons, List.nodup_cons] at h
    by_cases hp : p.1 = k
    · unfold keysNodup
      rw [aset, if_pos hp, List.map_cons, List.nodup_cons]
      exact ⟨by rw [← hp]; exact h.1, h.2⟩
    · unfold keysNodup
      rw [aset, if_neg hp, List.map_cons, List.nodup_cons]
      refine ⟨?_, ih h.2⟩
      intro hmem
      rw [mem_keys_iff_isSome, aget_aset_isSome] at hmem
      rcases hmem with h' | h'
      · exact hp h'
      · exact h.1 ((mem_keys_iff_isSome rest p.1).mpr h')

theorem mem_iff_aget {α : Type} (m : List (ℕ × α)) (hnd : keysNodup m) (k : ℕ) (v : α) :
    (k, v) ∈ m ↔ aget m k = some v := by
  constructor
  · intro h
    induction m with
    | nil => simp at h
    | cons p rest ih =>
      unfold keysNodup at hnd
      rw [List.map_cons, List.nodup_cons] at hnd
      rcases List.mem_cons.mp h with h | h
      · rw [← h]
        simp [aget]
      · have hk : k ∈ rest.map Prod.fst := List.mem_map_of_mem Prod.fst h
        have hp : ¬ p.1 = k := fun he => hnd.1 (he ▸ hk)
        rw [aget, if_neg hp]
        exact ih hnd.2 h
  · exact aget_mem m k v

theorem keysNodup_val_unique {α : Type} (m : List (ℕ × α)) (hnd : keysNodup m)
    (k : ℕ) (v v' : α) (h : (k, v) ∈ m) (h' : (k, v') ∈ m) : v = v' := by
  have e1 := (mem_iff_aget m hnd k v).mp h
  have e2 := (mem_iff_aget m hnd k v').mp h'
  rw [e1] at e2
  exact Option.some_injective _ e2

theorem mem_aset_self {α : Type} (m : List (ℕ × α)) (k : ℕ) (v : α) :
    (k, v) ∈ aset m k v := aget_mem _ _ _ (aget_aset_self m k v)

theorem mem_aset_of_ne {α : Type} (m : List (ℕ × α)) (k y : ℕ) (v d : α)
    (hne : y ≠ k) (h : (y, d) ∈ m) : (y, d) ∈ aset m k v := by
  induction m with
  | nil => simp at h
  | cons p rest ih =>
    by_cases hp : p.1 = k
    · rw [aset, if_pos hp]
      rcases List.mem_cons.mp h with h | h
      · have hyk : y = k := by rw [show y = p.1 from congrArg Prod.fst h, hp]
        exact absurd hyk hne
      · exact List.mem_cons_of_mem _ h
    · rw [aset, if_neg hp]
      rcases List.mem_cons.mp h with h | h
      · rw [h]; exact List.mem_cons_self _ _
      · exact List.mem_cons_of_mem _ (ih h)

theorem exists_mem_aset (m : List (ℕ × ℕ)) (k v y : ℕ) :
    (∃ d, (y, d) ∈ aset m k v) ↔ (y = k ∨ ∃ d, (y, d) ∈ m) := by
  constructor
  · rintro ⟨d, hd⟩
    rcases mem_aset m k v (y, d) hd with h | h
    · exact Or.inl (congrArg Prod.fst h)
    · exact Or.inr ⟨d, h⟩
  · rintro (rfl | ⟨d, hd⟩)
    · exact ⟨v, mem_aset_self m y v⟩
    · by_cases hy : y = k
      · exact ⟨v, hy ▸ mem_aset_self m k v⟩
      · exact ⟨d, mem_aset_of_ne m k y v d hy hd⟩

/-- Predicate preservation through a left fold. -/
theorem foldl_preserve {α β : Type} (Q : α → Prop) (f : α → β → α)
    (hf : ∀ a b, Q a → Q (f a b)) :
    ∀ (l : List β) (a : α), Q a → Q (l.foldl f a) := by
  intro l
  induction l with
  | nil => intro a ha; exact ha
  | cons b rest ih => intro a ha; exact ih (f a b) (hf a b ha)

/-! ### Shape of a partition's find report -/

theorem tagFold_keysNodup (sks : List ℕ) (t : ℕ) (acc : List (ℕ × ℕ))
    (h : keysNodup acc) :
    keysNodup (sks.foldl (fun found sk => aset found sk t) acc) :=
  foldl_preserve keysNodup _ (fun a b ha => keysNodup_aset a b t ha) sks acc h

theorem partition_find_keysNodup (p : Partition) (q : ℕ) :
    keysNodup (p.find q).1 := by
  unfold Partition.find
  simp only
  have houter : keysNodup ((permutations (transform q p.shift p.mask) p.mask).foldl
      (fun found permuted_key =>
        match aget p.one_kv (keyInt p.mask permuted_key) with
        | some source_keys =>
          source_keys.foldl (fun found source_key => aset found source_key 1) found
        | none => found) []) := by
    refine foldl_preserve keysNodup _ ?_ _ [] (by simp [keysNodup])
    intro acc pk hacc
    cases hone : aget p.one_kv (keyInt p.mask pk) with
    | none => exact hacc
    | some sks => exact tagFold_keysNodup sks 1 acc hacc
  cases hzero : aget p.zero_kv (keyInt p.mask (transform q p.shift p.mask)) with
  | none => exact houter
  | some sks => exact tagFold_keysNodup sks 0 _ houter

theorem tagFold_tags (sks : List ℕ) (t : ℕ) (acc : List (ℕ × ℕ))
    (ht : t = 0 ∨ t = 1) (h : ∀ kv ∈ acc, kv.2 = 0 ∨ kv.2 = 1) :
    ∀ kv ∈ sks.foldl (fun found sk => aset found sk t) acc, kv.2 = 0 ∨ kv.2 = 1 := by
  refine foldl_preserve (fun m => ∀ kv ∈ m, kv.2 = 0 ∨ kv.2 = 1) _ ?_ sks acc h
  intro m sk hm kv hkv
  rcases mem_aset m sk t kv hkv with h' | h'
  · rw [h']
    exact ht
  · exact hm kv h'

theorem partition_find_tags (p : Partition) (q : ℕ) :
    ∀ kv ∈ (p.find q).1, kv.2 = 0 ∨ kv.2 = 1 := by
  unfold Partition.find
  simp only
  have houter : ∀ kv ∈ ((permutations (transform q p.shift p.mask) p.mask).foldl
      (fun found permuted_key =>
        match aget p.one_kv (keyInt p.mask permuted_key) with
        | some source_keys =>
          source_keys.foldl (fun found source_key => aset found source_key 1) found
        | none => found) []), kv.2 = 0 ∨ kv.2 = 1 := by
    refine foldl_preserve (fun m : List (ℕ × ℕ) => ∀ kv ∈ m, kv.2 = 0 ∨ kv.2 = 1)
      _ ?_ _ [] (by simp)
    intro acc pk hacc
    cases hone : aget p.one_kv (keyInt p.mask pk) with
    | none => exact hacc
    | some sks => exact tagFold_tags sks 1 acc (Or.inr rfl) hacc
  cases hzero : aget p.zero_kv (keyInt p.mask (transform q p.shift p.mask)) with
  | none => exact houter
  | some sks => exact tagFold_tags sks 0 _ (Or.inl rfl) houter

/-! ### The candidate tally -/

theorem tallyStep_aget_ne (cands : List (ℕ × ℕ × ℕ)) (kv : ℕ × ℕ) (x : ℕ)
    (hne : x ≠ kv.1) : aget (tallyStep cands kv) x = aget cands x := by
  unfold tallyStep
  by_cases h0 : kv.2 = 0
  · rw [if_pos h0, aget_aset_ne cands kv.1 x _ hne]
  · rw [if_neg h0, aget_aset_ne cands kv.1 x _ hne]

theorem tallyStep_keysNodup (cands : List (ℕ × ℕ × ℕ)) (kv : ℕ × ℕ)
    (h : keysNodup cands) : keysNodup (tallyStep cands kv) := by
  unfold tallyStep
  by_cases h0 : kv.2 = 0
  · rw [if_pos h0]
    exact keysNodup_aset _ _ _ h
  · rw [if_neg h0]
    exact keysNodup_aset _ _ _ h

theorem tallyPartition_keysNodup (cands : List (ℕ × ℕ × ℕ)) (pc : List (ℕ × ℕ))
    (h : keysNodup cands) : keysNodup (tallyPartition cands pc) :=
  foldl_preserve keysNodup tallyStep tallyStep_keysNodup pc cands h

theorem tallyPartition_aget_of_not_key (pc : List (ℕ × ℕ)) (cands : List (ℕ × ℕ × ℕ))
    (x : ℕ) (h : x ∉ pc.map Prod.fst) :
    aget (tallyPartition cands pc) x = aget cands x := by
  induction pc generalizing cands with
  | nil => rfl
  | cons kv rest ih =>
    rw [List.map_cons, List.mem_cons] at h
    push_neg at h
    unfold tallyPartition
    rw [List.foldl_cons]
    have := ih (tallyStep cands kv) h.2
    unfold tallyPartition at this
    rw [this, tallyStep_aget_ne cands kv x h.1]

theorem tallyPartition_aget_of_mem (pc : List (ℕ × ℕ)) (cands : List (ℕ × ℕ × ℕ))
    (x t : ℕ) (hnd : keysNodup pc) (hmem : (x, t) ∈ pc) :
    aget (tallyPartition cands pc) x =
      some (if t = 0 then (((aget cands x).getD (0, 0)).1 + 1, ((aget cands x).getD (0, 0)).2)
            else (((aget cands x).getD (0, 0)).1, ((aget cands x).getD (0, 0)).2 + 1)) := by
  induction pc generalizing cands with
  | nil => simp at hmem
  | cons kv rest ih =>
    unfold keysNodup at hnd
    rw [List.map_cons, List.nodup_cons] at hnd
    unfold tallyPartition
    rw [List.foldl_cons]
    rcases List.mem_cons.mp hmem with hh | hh
    · have hx : kv.1 = x := congrArg Prod.fst hh.symm
      have ht : kv.2 = t := congrArg Prod.snd hh.symm
      have hrest : x ∉ rest.map Prod.fst := by rw [← hx]; exact hnd.1
      have hskip := tallyPartition_aget_of_not_key rest (tallyStep cands kv) x hrest
      unfold tallyPartition at hskip
      rw [hskip]
      unfold tallyStep
      by_cases h0 : kv.2 = 0
      · rw [if_pos h0, hx, aget_aset_self, if_pos (by rw [← ht]; exact h0)]
      · rw [if_neg h0, hx, aget_aset_self, if_neg (by rw [← ht]; exact h0)]
    · have hxk : x ∈ rest.map Prod.fst := List.mem_map_of_mem Prod.fst hh
      have hne : x ≠ kv.1 := fun he => hnd.1 (he ▸ hxk)
      have := ih (tallyStep cands kv) hnd.2 hh
      unfold tallyPartition at this
      rw [this, tallyStep_aget_ne cands kv x hne]

theorem findCandidates_keysNodup (q : ℕ) (ps : List Partition)
    (cands : List (ℕ × ℕ × ℕ)) (h : keysNodup cands) :
    keysNodup (findCandidates q ps cands).1 := by
  induction ps generalizing cands with
  | nil => exact h
  | cons p ps ih =>
    rcases hfind : p.find q with ⟨pc, e⟩
    have he : e = none := by
      have := partition_find_err p q
      rw [hfind] at this
      exact this
    subst he
    simp only [findCandidates, hfind]
    exact ih _ (tallyPartition_keysNodup cands pc h)

theorem findCandidates_aget (q : ℕ) (ps : List Partition) (x : ℕ)
    (cands : List (ℕ × ℕ × ℕ)) :
    ((aget (findCandidates q ps cands).1 x).getD (0, 0)).1 =
      ((aget cands x).getD (0, 0)).1 + ps.countP (fun p => reportsTag p q x 0) ∧
    ((aget (findCandidates q ps cands).1 x).getD (0, 0)).2 =
      ((aget cands x).getD (0, 0)).2 + ps.countP (fun p => reportsTag p q x 1) ∧
    (aget (findCandidates q ps cands).1 x = none ↔
      (aget cands x = none ∧ ps.countP (fun p => reportsTag p q x 0) = 0 ∧
       ps.countP (fun p => reportsTag p q x 1) = 0)) := by
  induction ps generalizing cands with
  | nil => simp [findCandidates]
  | cons p ps ih =>
    rcases hfind : p.find q with ⟨pc, e⟩
    have he : e = none := by
      have := partition_find_err p q
      rw [hfind] at this
      exact this
    subst he
    have hnd : keysNodup pc := by
      have := partition_find_keysNodup p q
      rw [hfind] at this
      exact this
    have htags : ∀ kv ∈ pc, kv.2 = 0 ∨ kv.2 = 1 := by
      have := partition_find_tags p q
      rw [hfind] at this
      exact this
    have hrep0 : reportsTag p q x 0 = true ↔ (x, 0) ∈ pc := by
      rw [reportsTag_iff, hfind]
    have hrep1 : reportsTag p q x 1 = true ↔ (x, 1) ∈ pc := by
      rw [reportsTag_iff, hfind]
    simp only [findCandidates, hfind]
    have hrec := ih (tallyPartition cands pc)
    by_cases hc0 : reportsTag p q x 0 = true
    · have hmem0 : (x, 0) ∈ pc := hrep0.mp hc0
      have hc1 : ¬ reportsTag p q x 1 = true := by
        intro hc1
        have hmem1 : (x, 1) ∈ pc := hrep1.mp hc1
        exact absurd (keysNodup_val_unique pc hnd x 0 1 hmem0 hmem1) (by omega)
      have hcnt0 : List.countP (fun p' => reportsTag p' q x 0) (p :: ps) =
          List.countP (fun p' => reportsTag p' q x 0) ps + 1 :=
        List.countP_cons_of_pos _ _ hc0
      have hcnt1 : List.countP (fun p' => reportsTag p' q x 1) (p :: ps) =
          List.countP (fun p' => reportsTag p' q x 1) ps :=
        List.countP_cons_of_neg _ _ hc1
      rw [hcnt0, hcnt1]
      have hstep := tallyPartition_aget_of_mem pc cands x 0 hnd hmem0
      rw [if_pos rfl] at hstep
      rw [hstep] at hrec
      simp only [Option.getD_some] at hrec
      refine ⟨by rw [hrec.1]; omega, by rw [hrec.2.1], ?_⟩
      rw [hrec.2.2]
      simp
    · by_cases hc1 : reportsTag p q x 1 = true
      · have hmem1 : (x, 1) ∈ pc := hrep1.mp hc1
        have hcnt0 : List.countP (fun p' => reportsTag p' q x 0) (p :: ps) =
            List.countP (fun p' => reportsTag p' q x 0) ps :=
          List.countP_cons_of_neg _ _ hc0
        have hcnt1 : List.countP (fun p' => reportsTag p' q x 1) (p :: ps) =
            List.countP (fun p' => reportsTag p' q x 1) ps + 1 :=
          List.countP_cons_of_pos _ _ hc1
        rw [hcnt0, hcnt1]
        have hstep := tallyPartition_aget_of_mem pc cands x 1 hnd hmem1
        rw [if_neg (by omega)] at hstep
        rw [hstep] at hrec
        simp only [Option.getD_some] at hrec
        refine ⟨by rw [hrec.1], by rw [hrec.2.1]; omega, ?_⟩
        rw [hrec.2.2]
        simp
      · have hnk : x ∉ pc.map Prod.fst := by
          intro hk
          rw [mem_keys_iff_isSome] at hk
          rcases Option.isSome_iff_exists.mp hk with ⟨v, hv⟩
          have hvm := aget_mem pc x v hv
          rcases htags (x, v) hvm with h0 | h0 <;> simp only at h0
          · exact hc0 (hrep0.mpr (h0 ▸ hvm))
          · exact hc1 (hrep1.mpr (h0 ▸ hvm))
        have hcnt0 : List.countP (fun p' => reportsTag p' q x 0) (p :: ps) =
            List.countP (fun p' => reportsTag p' q x 0) ps :=
          List.countP_cons_of_neg _ _ hc0
        have hcnt1 : List.countP (fun p' => reportsTag p' q x 1) (p :: ps) =
            List.countP (fun p' => reportsTag p' q x 1) ps :=
          List.countP_cons_of_neg _ _ hc1
        rw [hcnt0, hcnt1]
        have hstep := tallyPartition_aget_of_not_key pc cands x hnk
        rw [hstep] at hrec
        exact hrec

theorem aget_nil {α : Type} (k : ℕ) : aget ([] : List (ℕ × α)) k = none := rfl

theorem foldl_exists (f : List (ℕ × ℕ) → (ℕ × ℕ × ℕ) → List (ℕ × ℕ))
    (keep : ℕ × ℕ × ℕ → Prop)
    (hf : ∀ fm kv y, (∃ d, (y, d) ∈ f fm kv) ↔
      ((∃ d, (y, d) ∈ fm) ∨ (kv.1 = y ∧ keep kv))) :
    ∀ (l : List (ℕ × ℕ × ℕ)) (acc : List (ℕ × ℕ)) (y : ℕ),
      (∃ d, (y, d) ∈ l.foldl f acc) ↔
        ((∃ d, (y, d) ∈ acc) ∨ ∃ kv ∈ l, kv.1 = y ∧ keep kv) := by
  intro l
  induction l with
  | nil => intro acc y; simp
  | cons kv rest ih =>
    intro acc y
    rw [List.foldl_cons, ih (f acc kv) y, hf acc kv y]
    constructor
    · rintro ((h | h) | ⟨kv', hkv', hx, hk⟩)
      · exact Or.inl h
      · exact Or.inr ⟨kv, List.mem_cons_self _ _, h.1, h.2⟩
      · exact Or.inr ⟨kv', List.mem_cons_of_mem _ hkv', hx, hk⟩
    · rintro (h | ⟨kv', hkv', hx, hk⟩)
      · exact Or.inl (Or.inl h)
      · rcases List.mem_cons.mp hkv' with h' | h'
        · subst h'
          exact Or.inl (Or.inr ⟨hx, hk⟩)
        · exact Or.inr ⟨kv', h', hx, hk⟩

theorem evenStep_exists (q tol : ℕ) (fm : List (ℕ × ℕ)) (kv : ℕ × ℕ × ℕ) (y : ℕ) :
    (∃ d, (y, d) ∈ (if 1 ≤ kv.2.1 ∨ 2 ≤ kv.2.2 then
        (if hammingDist kv.1 q ≤ tol then aset fm kv.1 (hammingDist kv.1 q) else fm)
      else fm)) ↔
      ((∃ d, (y, d) ∈ fm) ∨
       (kv.1 = y ∧ ((1 ≤ kv.2.1 ∨ 2 ≤ kv.2.2) ∧ hammingDist kv.1 q ≤ tol))) := by
  by_cases hc : 1 ≤ kv.2.1 ∨ 2 ≤ kv.2.2
  · rw [if_pos hc]
    by_cases hh : hammingDist kv.1 q ≤ tol
    · rw [if_pos hh, exists_mem_aset]
      constructor
      · rintro (h | h)
        · exact Or.inr ⟨h.symm, hc, hh⟩
        · exact Or.inl h
      · rintro (h | ⟨h, _⟩)
        · exact Or.inr h
        · exact Or.inl h.symm
    · rw [if_neg hh]
      constructor
      · exact Or.inl
      · rintro (h | ⟨_, _, h⟩)
        · exact h
        · exact absurd h hh
  · rw [if_neg hc]
    constructor
    · exact Or.inl
    · rintro (h | ⟨_, h, _⟩)
      · exact h
      · exact absurd h hc

theorem oddStep_exists (q tol : ℕ) (fm : List (ℕ × ℕ)) (kv : ℕ × ℕ × ℕ) (y : ℕ) :
    (∃ d, (y, d) ∈ (if (1 ≤ kv.2.1 ∧ 2 ≤ kv.2.1 + kv.2.2) ∨ 3 ≤ kv.2.2 then
        (if hammingDist kv.1 q ≤ tol then aset fm kv.1 (hammingDist kv.1 q) else fm)
      else fm)) ↔
      ((∃ d, (y, d) ∈ fm) ∨
       (kv.1 = y ∧ (((1 ≤ kv.2.1 ∧ 2 ≤ kv.2.1 + kv.2.2) ∨ 3 ≤ kv.2.2) ∧
         hammingDist kv.1 q ≤ tol))) := by
  by_cases hc : (1 ≤ kv.2.1 ∧ 2 ≤ kv.2.1 + kv.2.2) ∨ 3 ≤ kv.2.2
  · rw [if_pos hc]
    by_cases hh : hammingDist kv.1 q ≤ tol
    · rw [if_pos hh, exists_mem_aset]
      constructor
      · rintro (h | h)
        · exact Or.inr ⟨h.symm, hc, hh⟩
        · exact Or.inl h
      · rintro (h | ⟨h, _⟩)
        · exact Or.inr h
        · exact Or.inl h.symm
    · rw [if_neg hh]
      constructor
      · exact Or.inl
      · rintro (h | ⟨_, _, h⟩)
        · exact h
        · exact absurd h hh
  · rw [if_neg hc]
    constructor
    · exact Or.inl
    · rintro (h | ⟨_, h, _⟩)
      · exact h
      · exact absurd h hc

/-- Claim C3: a candidate `x` is emitted by `Partitioning.Find(q)` exactly
when the HmSearch admission rule holds of its partition-report counts
(`e` exact partitions, `o` 1-match partitions) and the full Hamming check
passes — the pruning reproduces the even/odd rule exactly. -/
theorem find_admission_rule_exact (P : Partitioning) (q x : ℕ) :
    (∃ d, (x, d) ∈ (P.find q).1) ↔
      (hmSearchRule P.tolerance (countExact P q x) (countOne P q x) ∧
       hammingDist x q ≤ P.tolerance) := by
  have herr := findCandidates_err q P.partitions []
  rcases hfc : findCandidates q P.partitions [] with ⟨cands, e⟩
  rw [hfc] at herr
  simp only at herr
  subst herr
  have hagg := findCandidates_aget q P.partitions x []
  rw [hfc] at hagg
  simp only [aget_nil, Option.getD_none] at hagg
  have hnd : keysNodup cands := by
    have := findCandidates_keysNodup q P.partitions [] (by simp [keysNodup])
    rw [hfc] at this
    exact this
  have hget1 : ((aget cands x).getD (0, 0)).1 = countExact P q x := by
    rw [hagg.1, Nat.zero_add]
    rfl
  have hget2 : ((aget cands x).getD (0, 0)).2 = countOne P q x := by
    rw [hagg.2.1, Nat.zero_add]
    rfl
  have hnone : aget cands x = none ↔ (countExact P q x = 0 ∧ countOne P q x = 0) := by
    rw [hagg.2.2]
    unfold countExact countOne
    tauto
  unfold Partitioning.find
  rw [hfc]
  simp only
  by_cases ht : P.tolerance % 2 = 0
  · rw [if_pos ht]
    simp only
    rw [foldl_exists _ _ (fun fm kv y => evenStep_exists q P.tolerance fm kv y) cands [] x]
    have hrule : hmSearchRule P.tolerance (countExact P q x) (countOne P q x) ↔
        (1 ≤ countExact P q x ∨ 2 ≤ countOne P q x) := by
      unfold hmSearchRule
      rw [if_pos ht]
    rw [hrule]
    simp only [List.not_mem_nil, false_and, exists_const, false_or]
    constructor
    · rintro ⟨⟨k, eo⟩, hmem, hk, hkeep⟩
      simp only at hk hkeep
      rw [hk] at hmem hkeep
      have hsome := (mem_iff_aget cands hnd x eo).mp hmem
      rw [hsome] at hget1 hget2
      simp only [Option.getD_some] at hget1 hget2
      exact ⟨by rw [← hget1, ← hget2]; exact hkeep.1, hkeep.2⟩
    · rintro ⟨hr, hh⟩
      have hne : ¬ aget cands x = none := by
        rw [hnone]
        omega
      rcases Option.ne_none_iff_exists.mp hne with ⟨eo, heo⟩
      rw [← heo] at hget1 hget2
      simp only [Option.getD_some] at hget1 hget2
      refine ⟨(x, eo), aget_mem cands x eo heo.symm, rfl, ?_, hh⟩
      simp only
      rw [hget1, hget2]
      exact hr
  · rw [if_neg ht]
    simp only
    rw [foldl_exists _ _ (fun fm kv y => oddStep_exists q P.tolerance fm kv y) cands [] x]
    have hrule : hmSearchRule P.tolerance (countExact P q x) (countOne P q x) ↔
        ((1 ≤ countExact P q x ∧ 2 ≤ countExact P q x + countOne P q x) ∨
         3 ≤ countOne P q x) := by
      unfold hmSearchRule
      rw [if_neg ht]
    rw [hrule]
    simp only [List.not_mem_nil, false_and, exists_const, false_or]
    constructor
    · rintro ⟨⟨k, eo⟩, hmem, hk, hkeep⟩
      simp only at hk hkeep
      rw [hk] at hmem hkeep
      have hsome := (mem_iff_aget cands hnd x eo).mp hmem
      rw [hsome] at hget1 hget2
      simp only [Option.getD_some] at hget1 hget2
      exact ⟨by rw [← hget1, ← hget2]; exact hkeep.1, hkeep.2⟩
    · rintro ⟨hr, hh⟩
      have hne : ¬ aget cands x = none := by
        rw [hnone]
        omega
      rcases Option.ne_none_iff_exists.mp hne with ⟨eo, heo⟩
      rw [← heo] at hget1 hget2
      simp only [Option.getD_some] at hget1 hget2
      refine ⟨(x, eo), aget_mem cands x eo heo.symm, rfl, ?_, hh⟩
      simp only
      rw [hget1, hget2]
      exact hr

/-! ### Claim C7: the partition bucket invariant under insert/remove -/

/-- A single mutation of one `Partition`. -/
inductive POp where
  | ins : ℕ → POp
  | rem : ℕ → POp

/-- Apply one mutation (the returned flag and `nil` error are dropped). -/
def applyOp (p : Partition) : POp → Partition
  | POp.ins x => (p.insert x).1
  | POp.rem x => (p.remove x).1

/-- The partition state after a sequence of mutations. -/
def runOps (p : Partition) (ops : List POp) : Partition := ops.foldl applyOp p

/-- Whether `x` is currently indexed: inserted and not since removed. -/
def indexedStep (x : ℕ) (b : Bool) : POp → Bool
  | POp.ins y => if y = x then true else b
  | POp.rem y => if y = x then false else b

/-- `x` is indexed after `ops` on an initially empty partition. -/
def indexedAfter (ops : List POp) (x : ℕ) : Bool :=
  ops.foldl (indexedStep x) false

theorem partition_remove_geom (p : Partition) (x : ℕ) :
    ((p.remove x).1).shift = p.shift ∧ ((p.remove x).1).mask = p.mask := by
  unfold Partition.remove
  by_cases h : (removeKey p.zero_kv (keyInt p.mask (transform x p.shift p.mask)) x).1 = true <;>
    simp [h]

theorem mem_bucket_insertKey (kv : BucketMap) (key value y b : ℕ) :
    y ∈ bucket (insertKey kv key value).2 b ↔
      (y ∈ bucket kv b ∨ (y = value ∧ b = key)) := by
  by_cases hmem : value ∈ bucket kv key
  · rw [insertKey_of_mem kv key value hmem]
    constructor
    · exact Or.inl
    · rintro (h | ⟨rfl, rfl⟩)
      · exact h
      · exact hmem
  · rw [insertKey_of_not_mem kv key value hmem]
    simp only [bucket_aset]
    by_cases hb : b = key
    · subst hb
      rw [if_pos rfl, List.mem_append, List.mem_singleton]
      tauto
    · rw [if_neg hb]
      constructor
      · exact Or.inl
      · rintro (h | ⟨_, rfl⟩)
        · exact h
        · exact absurd rfl hb

theorem nodup_bucket_insertKey (kv : BucketMap) (key value : ℕ)
    (h : ∀ b, (bucket kv b).Nodup) :
    ∀ b, (bucket (insertKey kv key value).2 b).Nodup := by
  intro b
  by_cases hmem : value ∈ bucket kv key
  · rw [insertKey_of_mem kv key value hmem]
    exact h b
  · rw [insertKey_of_not_mem kv key value hmem]
    simp only [bucket_aset]
    by_cases hb : b = key
    · rw [if_pos hb]
      simp [List.nodup_append, h key, hmem]
    · rw [if_neg hb]
      exact h b

theorem mem_bucket_removeKey (kv : BucketMap) (key value y b : ℕ)
    (hnd : ∀ b, (bucket kv b).Nodup) :
    y ∈ bucket (removeKey kv key value).2 b ↔
      (y ∈ bucket kv b ∧ ¬(y = value ∧ b = key)) := by
  by_cases hmem : value ∈ bucket kv key
  · rw [removeKey_of_mem kv key value hmem]
    simp only [bucket_aset]
    by_cases hb : b = key
    · subst hb
      rw [if_pos rfl, List.Nodup.mem_erase_iff (hnd b)]
      tauto
    · rw [if_neg hb]
      constructor
      · intro h
        exact ⟨h, fun hc => hb hc.2⟩
      · exact And.left
  · rw [removeKey_of_not_mem kv key value hmem]
    constructor
    · intro h
      refine ⟨h, ?_⟩
      rintro ⟨rfl, rfl⟩
      exact hmem h
    · exact And.left

theorem nodup_bucket_removeKey (kv : BucketMap) (key value : ℕ)
    (h : ∀ b, (bucket kv b).Nodup) :
    ∀ b, (bucket (removeKey kv key value).2 b).Nodup := by
  intro b
  by_cases hmem : value ∈ bucket kv key
  · rw [removeKey_of_mem kv key value hmem]
    simp only [bucket_aset]
    by_cases hb : b = key
    · rw [if_pos hb]
      exact List.Nodup.erase value (h key)
    · rw [if_neg hb]
      exact h b
  · rw [removeKey_of_not_mem kv key value hmem]
    exact h b

theorem mem_insertFold (l : List ℕ) (mask x : ℕ) :
    ∀ (kv : BucketMap) (y b : ℕ),
      y ∈ bucket (l.foldl (fun kv pk => (insertKey kv (keyInt mask pk) x).2) kv) b ↔
        (y ∈ bucket kv b ∨ (y = x ∧ ∃ pk ∈ l, b = keyInt mask pk)) := by
  induction l with
  | nil => intro kv y b; simp
  | cons pk rest ih =>
    intro kv y b
    rw [List.foldl_cons, ih _ y b, mem_bucket_insertKey kv (keyInt mask pk) x y b]
    simp only [List.mem_cons]
    constructor
    · rintro ((h | ⟨rfl, rfl⟩) | ⟨rfl, pk', hpk', rfl⟩)
      · exact Or.inl h
      · exact Or.inr ⟨rfl, pk, Or.inl rfl, rfl⟩
      · exact Or.inr ⟨rfl, pk', Or.inr hpk', rfl⟩
    · rintro (h | ⟨rfl, pk', (rfl | hpk'), rfl⟩)
      · exact Or.inl (Or.inl h)
      · exact Or.inl (Or.inr ⟨rfl, rfl⟩)
      · exact Or.inr ⟨rfl, pk', hpk', rfl⟩

theorem nodup_insertFold (l : List ℕ) (mask x : ℕ) (kv : BucketMap)
    (h : ∀ b, (bucket kv b).Nodup) :
    ∀ b, (bucket (l.foldl (fun kv pk => (insertKey kv (keyInt mask pk) x).2) kv) b).Nodup :=
  foldl_preserve (fun kv => ∀ b, (bucket kv b).Nodup) _
    (fun kv pk hkv => nodup_bucket_insertKey kv (keyInt mask pk) x hkv) l kv h

theorem mem_removeFold (l : List ℕ) (mask x : ℕ) :
    ∀ (kv : BucketMap), (∀ b, (bucket kv b).Nodup) → ∀ (y b : ℕ),
      (y ∈ bucket (l.foldl (fun kv pk => (removeKey kv (keyInt mask pk) x).2) kv) b ↔
        (y ∈ bucket kv b ∧ ¬(y = x ∧ ∃ pk ∈ l, b = keyInt mask pk))) := by
  induction l with
  | nil => intro kv _ y b; simp
  | cons pk rest ih =>
    intro kv hnd y b
    rw [List.foldl_cons,
      ih _ (nodup_bucket_removeKey kv (keyInt mask pk) x hnd) y b,
      mem_bucket_removeKey kv (keyInt mask pk) x y b hnd]
    simp only [List.mem_cons]
    constructor
    · rintro ⟨⟨hm, hn1⟩, hn2⟩
      refine ⟨hm, ?_⟩
      rintro ⟨rfl, pk', (rfl | hpk'), rfl⟩
      · exact hn1 ⟨rfl, rfl⟩
      · exact hn2 ⟨rfl, pk', hpk', rfl⟩
    · rintro ⟨hm, hn⟩
      refine ⟨⟨hm, ?_⟩, ?_⟩
      · rintro ⟨rfl, rfl⟩
        exact hn ⟨rfl, pk, Or.inl rfl, rfl⟩
      · rintro ⟨rfl, pk', hpk', rfl⟩
        exact hn ⟨rfl, pk', Or.inr hpk', rfl⟩

theorem nodup_removeFold (l : List ℕ) (mask x : ℕ) (kv : BucketMap)
    (h : ∀ b, (bucket kv b).Nodup) :
    ∀ b, (bucket (l.foldl (fun kv pk => (removeKey kv (keyInt mask pk) x).2) kv) b).Nodup :=
  foldl_preserve (fun kv => ∀ b, (bucket kv b).Nodup) _
    (fun kv pk hkv => nodup_bucket_removeKey kv (keyInt mask pk) x hkv) l kv h

/-- The zero-table bucket key for geometry `(shift, mask)` and key `x`. -/
def zkeyRaw (shift mask x : ℕ) : ℕ := keyInt mask (transform x shift mask)

/-- The one-table bucket key for geometry `(shift, mask)`, key `x`, flip `i`. -/
def okeyRaw (shift mask x i : ℕ) : ℕ := keyInt mask (flipBit (transform x shift mask) i)

/-- The bucket invariant of a partition with geometry `(shift, mask)` whose
set of indexed keys is `I`: the zero-table holds exactly the indexed keys in
their own buckets, the one-table holds exactly the indexed keys in all their
1-flip buckets, and no bucket holds duplicates. -/
def GoodTables (shift mask : ℕ) (zkv okv : BucketMap) (I : ℕ → Prop) : Prop :=
  (∀ x b, x ∈ bucket zkv b ↔ (I x ∧ b = zkeyRaw shift mask x)) ∧
  (∀ x b, x ∈ bucket okv b ↔ (I x ∧ ∃ i, i < mask ∧ b = okeyRaw shift mask x i)) ∧
  (∀ b, (bucket zkv b).Nodup) ∧
  (∀ b, (bucket okv b).Nodup)

/-- `GoodTables` for the tables of `p`. -/
def GoodPartition (p : Partition) (I : ℕ → Prop) : Prop :=
  GoodTables p.shift p.mask p.zero_kv p.one_kv I

theorem goodTables_congr (shift mask : ℕ) (zkv okv : BucketMap) (I J : ℕ → Prop)
    (hIJ : ∀ y, I y ↔ J y) (h : GoodTables shift mask zkv okv I) :
    GoodTables shift mask zkv okv J := by
  obtain ⟨hZ, hO, hndZ, hndO⟩ := h
  refine ⟨fun x b => ?_, fun x b => ?_, hndZ, hndO⟩
  · rw [hZ x b, hIJ x]
  · rw [hO x b, hIJ x]

theorem partition_insert_state_of_not_mem (p : Partition) (x : ℕ)
    (h : x ∉ bucket p.zero_kv (zeroKeyOf p x)) :
    (p.insert x).1 = { p with
      zero_kv := aset p.zero_kv (zeroKeyOf p x) (bucket p.zero_kv (zeroKeyOf p x) ++ [x]),
      one_kv := (permutations (transform x p.shift p.mask) p.mask).foldl
        (fun kv pk => (insertKey kv (keyInt p.mask pk) x).2) p.one_kv } := by
  unfold zeroKeyOf at h ⊢
  have hr := insertKey_of_not_mem p.zero_kv (keyInt p.mask (transform x p.shift p.mask)) x h
  unfold Partition.insert
  simp only [hr, if_true]

theorem partition_remove_state_of_mem (p : Partition) (x : ℕ)
    (h : x ∈ bucket p.zero_kv (zeroKeyOf p x)) :
    (p.remove x).1 = { p with
      zero_kv := aset p.zero_kv (zeroKeyOf p x) ((bucket p.zero_kv (zeroKeyOf p x)).erase x),
      one_kv := (permutations (transform x p.shift p.mask) p.mask).foldl
        (fun kv pk => (removeKey kv (keyInt p.mask pk) x).2) p.one_kv } := by
  unfold zeroKeyOf at h ⊢
  have hr := removeKey_of_mem p.zero_kv (keyInt p.mask (transform x p.shift p.mask)) x h
  unfold Partition.remove
  simp only [hr, if_true]

theorem partition_remove_of_not_mem (p : Partition) (x : ℕ)
    (h : x ∉ bucket p.zero_kv (zeroKeyOf p x)) : p.remove x = (p, false, none) := by
  unfold zeroKeyOf at h
  have hr := removeKey_of_not_mem p.zero_kv (keyInt p.mask (transform x p.shift p.mask)) x h
  unfold Partition.remove
  simp only [hr, Bool.false_eq_true, if_false]

theorem perm_key_iff (shift mask x b : ℕ) :
    (∃ pk ∈ permutations (transform x shift mask) mask, b = keyInt mask pk) ↔
      ∃ i, i < mask ∧ b = okeyRaw shift mask x i := by
  unfold permutations okeyRaw
  constructor
  · rintro ⟨pk, hpk, rfl⟩
    rcases List.mem_map.mp hpk with ⟨i, hi, rfl⟩
    exact ⟨i, List.mem_range.mp hi, rfl⟩
  · rintro ⟨i, hi, rfl⟩
    exact ⟨flipBit (transform x shift mask) i,
      List.mem_map.mpr ⟨i, List.mem_range.mpr hi, rfl⟩, rfl⟩

theorem zeroKeyOf_eq (p : Partition) (x : ℕ) :
    zeroKeyOf p x = zkeyRaw p.shift p.mask x := rfl

theorem partition_insert_zero_of_not_mem (p : Partition) (x : ℕ)
    (h : x ∉ bucket p.zero_kv (zeroKeyOf p x)) :
    ((p.insert x).1).zero_kv =
      aset p.zero_kv (zeroKeyOf p x) (bucket p.zero_kv (zeroKeyOf p x) ++ [x]) := by
  rw [partition_insert_state_of_not_mem p x h]

theorem partition_insert_one_of_not_mem (p : Partition) (x : ℕ)
    (h : x ∉ bucket p.zero_kv (zeroKeyOf p x)) :
    ((p.insert x).1).one_kv =
      (permutations (transform x p.shift p.mask) p.mask).foldl
        (fun kv pk => (insertKey kv (keyInt p.mask pk) x).2) p.one_kv := by
  rw [partition_insert_state_of_not_mem p x h]

theorem partition_remove_zero_of_mem (p : Partition) (x : ℕ)
    (h : x ∈ bucket p.zero_kv (zeroKeyOf p x)) :
    ((p.remove x).1).zero_kv =
      aset p.zero_kv (zeroKeyOf p x) ((bucket p.zero_kv (zeroKeyOf p x)).erase x) := by
  rw [partition_remove_state_of_mem p x h]

theorem partition_remove_one_of_mem (p : Partition) (x : ℕ)
    (h : x ∈ bucket p.zero_kv (zeroKeyOf p x)) :
    ((p.remove x).1).one_kv =
      (permutations (transform x p.shift p.mask) p.mask).foldl
        (fun kv pk => (removeKey kv (keyInt p.mask pk) x).2) p.one_kv := by
  rw [partition_remove_state_of_mem p x h]

theorem insert_good (p : Partition) (x : ℕ) (I : ℕ → Prop)
    (h : GoodPartition p I) : GoodPartition ((p.insert x).1) (fun y => I y ∨ y = x) := by
  obtain ⟨hZ, hO, hndZ, hndO⟩ := h
  by_cases hmem : x ∈ bucket p.zero_kv (zeroKeyOf p x)
  · have hIx : I x := ((hZ x (zeroKeyOf p x)).mp hmem).1
    rw [partition_insert_of_mem p x hmem]
    exact goodTables_congr p.shift p.mask p.zero_kv p.one_kv I _
      (fun y => ⟨Or.inl, fun hy => hy.elim id (fun he => he ▸ hIx)⟩)
      ⟨hZ, hO, hndZ, hndO⟩
  · have hnIx : ¬ I x := fun hI => hmem ((hZ x (zeroKeyOf p x)).mpr ⟨hI, rfl⟩)
    unfold GoodPartition
    rw [(partition_insert_geom p x).1, (partition_insert_geom p x).2,
      partition_insert_zero_of_not_mem p x hmem, partition_insert_one_of_not_mem p x hmem]
    refine ⟨fun y b => ?_, fun y b => ?_, fun b => ?_, fun b => ?_⟩
    · rw [bucket_aset]
      by_cases hb : b = zeroKeyOf p x
      · rw [if_pos hb, List.mem_append, List.mem_singleton]
        constructor
        · rintro (hy | rfl)
          · obtain ⟨hIy, hby⟩ := (hZ y (zeroKeyOf p x)).mp hy
            exact ⟨Or.inl hIy, hb.trans hby⟩
          · exact ⟨Or.inr rfl, hb⟩
        · rintro ⟨hIy | rfl, hby⟩
          · left
            exact (hZ y (zeroKeyOf p x)).mpr ⟨hIy, hb.symm.trans hby⟩
          · right
            rfl
      · rw [if_neg hb, hZ y b]
        constructor
        · rintro ⟨hIy, hby⟩
          exact ⟨Or.inl hIy, hby⟩
        · rintro ⟨hIy | rfl, hby⟩
          · exact ⟨hIy, hby⟩
          · exact absurd hby hb
    · rw [mem_insertFold, hO y b, perm_key_iff p.shift p.mask x b]
      constructor
      · rintro (⟨hIy, hex⟩ | ⟨rfl, hex⟩)
        · exact ⟨Or.inl hIy, hex⟩
        · exact ⟨Or.inr rfl, hex⟩
      · rintro ⟨hIy | rfl, hex⟩
        · exact Or.inl ⟨hIy, hex⟩
        · exact Or.inr ⟨rfl, hex⟩
    · rw [bucket_aset]
      by_cases hb : b = zeroKeyOf p x
      · rw [if_pos hb]
        simp [List.nodup_append, hndZ (zeroKeyOf p x), hmem]
      · rw [if_neg hb]
        exact hndZ b
    · exact nodup_insertFold _ p.mask x p.one_kv hndO b

theorem remove_good (p : Partition) (x : ℕ) (I : ℕ → Prop)
    (h : GoodPartition p I) : GoodPartition ((p.remove x).1) (fun y => I y ∧ y ≠ x) := by
  obtain ⟨hZ, hO, hndZ, hndO⟩ := h
  by_cases hmem : x ∈ bucket p.zero_kv (zeroKeyOf p x)
  · unfold GoodPartition
    rw [(partition_remove_geom p x).1, (partition_remove_geom p x).2,
      partition_remove_zero_of_mem p x hmem, partition_remove_one_of_mem p x hmem]
    refine ⟨fun y b => ?_, fun y b => ?_, fun b => ?_, fun b => ?_⟩
    · rw [bucket_aset]
      by_cases hb : b = zeroKeyOf p x
      · rw [if_pos hb, List.Nodup.mem_erase_iff (hndZ (zeroKeyOf p x))]
        rw [hZ y (zeroKeyOf p x)]
        constructor
        · rintro ⟨hne, hIy, hby⟩
          exact ⟨⟨hIy, hne⟩, hb.trans hby⟩
        · rintro ⟨⟨hIy, hne⟩, hby⟩
          exact ⟨hne, hIy, hb.symm.trans hby⟩
      · rw [if_neg hb, hZ y b]
        constructor
        · rintro ⟨hIy, hby⟩
          refine ⟨⟨hIy, ?_⟩, hby⟩
          rintro rfl
          exact hb hby
        · rintro ⟨⟨hIy, _⟩, hby⟩
          exact ⟨hIy, hby⟩
    · rw [mem_removeFold _ p.mask x p.one_kv hndO y b, hO y b,
        perm_key_iff p.shift p.mask x b]
      constructor
      · rintro ⟨⟨hIy, hex⟩, hn⟩
        have hne : y ≠ x := by
          rintro rfl
          exact hn ⟨rfl, hex⟩
        exact ⟨⟨hIy, hne⟩, hex⟩
      · rintro ⟨⟨hIy, hne⟩, hex⟩
        refine ⟨⟨hIy, hex⟩, ?_⟩
        rintro ⟨he, _⟩
        exact hne he
    · rw [bucket_aset]
      by_cases hb : b = zeroKeyOf p x
      · rw [if_pos hb]
        exact List.Nodup.erase x (hndZ (zeroKeyOf p x))
      · rw [if_neg hb]
        exact hndZ b
    · exact nodup_removeFold _ p.mask x p.one_kv hndO b
  · have hnIx : ¬ I x := fun hI => hmem ((hZ x (zeroKeyOf p x)).mpr ⟨hI, rfl⟩)
    have hst : (p.remove x).1 = p := by
      rw [partition_remove_of_not_mem p x hmem]
    rw [hst]
    exact goodTables_congr p.shift p.mask p.zero_kv p.one_kv I _
      (fun y => ⟨fun hy => ⟨hy, fun he => hnIx (he ▸ hy)⟩, And.left⟩)
      ⟨hZ, hO, hndZ, hndO⟩

theorem newPartition_good (shift mask : ℕ) :
    GoodPartition (newPartition shift mask) (fun _ => (false : Bool) = true) := by
  refine ⟨fun x b => ?_, fun x b => ?_, fun b => ?_, fun b => ?_⟩ <;>
    simp [newPartition, bucket, aget]

theorem runOps_good_aux : ∀ (ops : List POp) (p : Partition) (B : ℕ → Bool),
    GoodPartition p (fun x => B x = true) →
    GoodPartition (runOps p ops)
      (fun x => ops.foldl (indexedStep x) (B x) = true) := by
  intro ops
  induction ops with
  | nil => intro p B h; exact h
  | cons op rest ih =>
    intro p B h
    have hstep : GoodPartition (applyOp p op) (fun x => indexedStep x (B x) op = true) := by
      cases op with
      | ins y =>
        refine goodTables_congr _ _ _ _ _ _ ?_ (insert_good p y (fun x => B x = true) h)
        intro z
        by_cases hz : y = z
        · subst hz
          simp [indexedStep]
        · have hz' : ¬ z = y := fun he => hz he.symm
          simp [indexedStep, hz, hz']
      | rem y =>
        refine goodTables_congr _ _ _ _ _ _ ?_ (remove_good p y (fun x => B x = true) h)
        intro z
        by_cases hz : y = z
        · subst hz
          simp [indexedStep]
        · have hz' : ¬ z = y := fun he => hz he.symm
          simp [indexedStep, hz, hz']
    exact ih (applyOp p op) (fun x => indexedStep x (B x) op) hstep

theorem runOps_geom (ops : List POp) : ∀ (p : Partition),
    (runOps p ops).shift = p.shift ∧ (runOps p ops).mask = p.mask := by
  induction ops with
  | nil => intro p; exact ⟨rfl, rfl⟩
  | cons op rest ih =>
    intro p
    have hstep : (applyOp p op).shift = p.shift ∧ (applyOp p op).mask = p.mask := by
      cases op with
      | ins y => exact partition_insert_geom p y
      | rem y => exact partition_remove_geom p y
    have := ih (applyOp p op)
    exact ⟨this.1.trans hstep.1, this.2.trans hstep.2⟩

/-- Claim C7: after any sequence of `Insert`/`Remove` operations on a fresh
partition with unbounded storage, every currently indexed key `x` sits in
`zero_kv` under its own sub-word bucket key and in `one_kv` under every
1-flip bucket key (P1, P2), and a key that is not indexed sits in no bucket
of either table (P3). -/
theorem partition_invariant_preserved (shift mask : ℕ) (ops : List POp) (x : ℕ) :
    (indexedAfter ops x = true →
      x ∈ bucket (runOps (newPartition shift mask) ops).zero_kv
          (zeroKeyOf (runOps (newPartition shift mask) ops) x) ∧
      ∀ i, i < mask →
        x ∈ bucket (runOps (newPartition shift mask) ops).one_kv
            (oneKeyOf (runOps (newPartition shift mask) ops) x i)) ∧
    (indexedAfter ops x = false →
      ∀ b, x ∉ bucket (runOps (newPartition shift mask) ops).zero_kv b ∧
           x ∉ bucket (runOps (newPartition shift mask) ops).one_kv b) := by
  have hgood := runOps_good_aux ops (newPartition shift mask) (fun _ => false)
    (newPartition_good shift mask)
  obtain ⟨hZ, hO, hndZ, hndO⟩ := hgood
  have hmask : (runOps (newPartition shift mask) ops).mask = mask :=
    (runOps_geom ops (newPartition shift mask)).2
  constructor
  · intro hidx
    constructor
    · exact (hZ x _).mpr ⟨hidx, rfl⟩
    · intro i hi
      refine (hO x _).mpr ⟨hidx, i, ?_, rfl⟩
      rw [hmask]
      exact hi
  · intro hidx b
    constructor
    · intro hmem
      have hc : indexedAfter ops x = true := ((hZ x b).mp hmem).1
      rw [hidx] at hc
      exact absurd hc (by simp)
    · intro hmem
      have hc : indexedAfter ops x = true := ((hO x b).mp hmem).1
      rw [hidx] at hc
      exact absurd hc (by simp)

/-- Witness for `partition_invariant_preserved`: on partition `(0, 4)` after
inserting 5 and 9 and removing 9, key 5 is indexed and present in its
zero-table bucket. -/
theorem partition_invariant_preserved_witness :
    indexedAfter [POp.ins 5, POp.ins 9, POp.rem 9] 5 = true ∧
    5 ∈ bucket (runOps (newPartition 0 4) [POp.ins 5, POp.ins 9, POp.rem 9]).zero_kv
        (zeroKeyOf (runOps (newPartition 0 4) [POp.ins 5, POp.ins 9, POp.rem 9]) 5) :=
  ⟨by decide,
   ((partition_invariant_preserved 0 4 [POp.ins 5, POp.ins 9, POp.rem 9] 5).1
     (by decide)).1⟩

/-- Witness for `find_admission_rule_exact`: key 240 emitted for query 224
on the `B = 4`, `k = 4` index satisfies the admission rule and the Hamming
bound. -/
theorem find_admission_rule_exact_witness :
    hmSearchRule (((newPartitioning 4 4).insert 240).1).tolerance
      (countExact (((newPartitioning 4 4).insert 240).1) 224 240)
      (countOne (((newPartitioning 4 4).insert 240).1) 224 240) ∧
    hammingDist 240 224 ≤ (((newPartitioning 4 4).insert 240).1).tolerance :=
  (find_admission_rule_exact (((newPartitioning 4 4).insert 240).1) 224 240).mp
    ⟨1, by decide⟩

end Hammer
